import Mathlib

/-!
Verification of the beerwater core (src/main.rs): the linear concentration
model `conc`, the constraint error metric `err`, the `nudge` perturbation,
the greedy hill-climbing loop of `main`, and the reporter's pass/fail marks.

Modelling choices: the Rust `f32` values are idealised as rationals (ℚ), so
every arithmetic identity is exact.  Rust vector indexing panics when out of
bounds; every indexing operation of the source is therefore modelled in the
Option monad (`none` = panic).  The random samples drawn by the source
(`Normal::new(-eps, eps)` in `nudge`, the uniform initial quantities in
`main`) are modelled as ambient streams of rational values supplied as
arguments, so theorems quantify over every possible random stream.
-/

namespace Beerwater

/-- The constraint sum type of src/main.rs lines 9-14: an exact target for
one ion, an inclusive range for one ion, or a target ratio between two
ions, each ion given by its index into the concentration vector. -/
inductive Constraint where
  | Exact : Nat → ℚ → Constraint
  | Range : Nat → ℚ → ℚ → Constraint
  | Ratio : Nat → Nat → ℚ → Constraint
deriving DecidableEq

/-- The body of the `match` in `err` (src/main.rs lines 35-65): the error
contribution of one constraint, `none` when an ion index is out of bounds
of the concentration vector (a Rust indexing panic). -/
def errC (concentrations : List ℚ) : Constraint → Option ℚ
  | .Exact i t =>
      (concentrations[i]?).map (fun c => (c - t) * (c - t))
  | .Range i mn mx =>
      (concentrations[i]?).map (fun c =>
        if c < mn then (c - mn) * (c - mn)
        else if c > mx then (c - mx) * (c - mx)
        else 0)
  | .Ratio a b r => do
      let ca ← concentrations[a]?
      let cb ← concentrations[b]?
      pure (if cb < 1/100 then 10000
            else (ca / cb - r) * (ca / cb - r))

/-- The error function `err` of src/main.rs lines 31-70: starting from 0,
add each constraint's contribution in order; `none` models a panic on an
out-of-bounds ion index. -/
def err (constraints : List Constraint) (concentrations : List ℚ) : Option ℚ :=
  constraints.foldlM (fun sum k => (errC concentrations k).map (fun v => sum + v)) 0

/-- The inner accumulation loop of `conc` (src/main.rs lines 75-78): for a
fixed ion slot `i`, sum `contributions[s][i] * quantities[s]` over
`s < quantities.length`, `none` on any out-of-bounds index. -/
def concInner (contributions : List (List ℚ)) (quantities : List ℚ) (i : Nat) : Option ℚ :=
  (List.range quantities.length).foldlM
    (fun acc s => do
      let row ← contributions[s]?
      let v ← row[i]?
      let q ← quantities[s]?
      pure (acc + v * q)) 0

/-- The concentration computation `conc` of src/main.rs lines 73-80.  Note
that the source iterates the OUTER loop over `quantities.len()` (the number
of salts), not over the length of the concentration vector: slot `i` of the
output buffer is written only for `i < quantities.length`, and writing slot
`i` panics (`none`) when `i` is out of bounds of the buffer. -/
def conc (contributions : List (List ℚ)) (quantities : List ℚ)
    (concentrations : List ℚ) : Option (List ℚ) :=
  (List.range quantities.length).foldlM
    (fun cs i => do
      let _ ← cs[i]?
      let v ← concInner contributions quantities i
      pure (cs.set i v)) concentrations

/-- The `alkalinity` function of src/main.rs lines 26-28. -/
def alkalinity (concentrations : List ℚ) (iHco3 : Nat) : Option ℚ :=
  (concentrations[iHco3]?).map (fun c => c * 50 / 61)

/-- Specification-side concentration contract (§4.1 of the spec, for
comparison with `conc`): one entry per ion, entry `i` being
`Σ_s matrix[s][i] * quantities[s]`. -/
def concSpec (contributions : List (List ℚ)) (quantities : List ℚ)
    (numIons : Nat) : List ℚ :=
  (List.range numIons).map (fun i =>
    ((List.range quantities.length).map (fun s =>
      (contributions.getD s []).getD i 0 * quantities.getD s 0)).sum)

/-- Total (panic-free) value of one constraint's error contribution,
mirroring `errC` with default-0 indexing; agrees with `errC` whenever the
constraint's ion indices are in bounds. -/
def penaltyTotal (concentrations : List ℚ) : Constraint → ℚ
  | .Exact i t =>
      (concentrations.getD i 0 - t) * (concentrations.getD i 0 - t)
  | .Range i mn mx =>
      if concentrations.getD i 0 < mn then
        (concentrations.getD i 0 - mn) * (concentrations.getD i 0 - mn)
      else if concentrations.getD i 0 > mx then
        (concentrations.getD i 0 - mx) * (concentrations.getD i 0 - mx)
      else 0
  | .Ratio a b r =>
      if concentrations.getD b 0 < 1/100 then 10000
      else (concentrations.getD a 0 / concentrations.getD b 0 - r) *
           (concentrations.getD a 0 / concentrations.getD b 0 - r)

/-- Specification-side per-constraint penalty, worded as §4.2 of the spec
words it: squared difference for Exact; zero inside the range and squared
distance to the violated bound outside it; fixed penalty 10000 under the
near-zero denominator guard and squared ratio deviation otherwise. -/
def penaltySpec (concentrations : List ℚ) : Constraint → ℚ
  | .Exact i t => (concentrations.getD i 0 - t) ^ 2
  | .Range i mn mx =>
      if mn ≤ concentrations.getD i 0 ∧ concentrations.getD i 0 ≤ mx then 0
      else if concentrations.getD i 0 < mn then (concentrations.getD i 0 - mn) ^ 2
      else (concentrations.getD i 0 - mx) ^ 2
  | .Ratio a b r =>
      if concentrations.getD b 0 < 1/100 then 10000
      else (concentrations.getD a 0 / concentrations.getD b 0 - r) ^ 2

/-- A constraint refers only to ion indices below `n`. -/
def refersBelow (n : Nat) : Constraint → Bool
  | .Exact i _ => decide (i < n)
  | .Range i _ _ => decide (i < n)
  | .Ratio a b _ => decide (a < n) && decide (b < n)

/-- Well-formedness of a constraint per the data model (§3): a Range has
`min ≤ max`; the other variants are unrestricted. -/
def rangeWF : Constraint → Bool
  | .Range _ mn mx => decide (mn ≤ mx)
  | _ => true

/-- A constraint is exactly satisfied by a concentration vector: Exact hits
its target, Range lies inclusively within its bounds, Ratio has denominator
at least 1/100 and quotient equal to the target ratio. -/
def satisfied (concentrations : List ℚ) : Constraint → Prop
  | .Exact i t => concentrations.getD i 0 = t
  | .Range i mn mx =>
      mn ≤ concentrations.getD i 0 ∧ concentrations.getD i 0 ≤ mx
  | .Ratio a b r =>
      1/100 ≤ concentrations.getD b 0 ∧
      concentrations.getD a 0 / concentrations.getD b 0 = r

/-- The search state of the optimizer loop in `main` (src/main.rs lines
369-398): the current best quantity vector, the concentration vector
derived from it, and its error. -/
structure SearchState where
  bestQuantities : List ℚ
  bestConcentrations : List ℚ
  bestErr : ℚ
deriving DecidableEq

/-- The `nudge` operation of src/main.rs lines 16-23: each output component
`s` is `max 0 (qin[s] + g s)`, where `g s` stands for the `s`-th sample
drawn in this call from the source's `Normal::new(-eps, eps)` distribution;
the samples are modelled as an ambient stream of rational values. -/
def nudge (qin : List ℚ) (g : Nat → ℚ) : List ℚ :=
  (List.range qin.length).map (fun s => max 0 (qin.getD s 0 + g s))

/-- One iteration of the optimizer loop (src/main.rs lines 384-393): nudge
the best quantities into a trial vector, recompute concentrations into the
scratch buffer (whose slots the inner loops never touch stay 0 for the
whole run, hence the fresh all-zero buffer), evaluate the error, and accept
the trial triple exactly when its error is strictly smaller. -/
def step (contributions : List (List ℚ)) (constraints : List Constraint)
    (numIons : Nat) (st : SearchState) (g : Nat → ℚ) : Option SearchState := do
  let tq := nudge st.bestQuantities g
  let tc ← conc contributions tq (List.replicate numIons 0)
  let te ← err constraints tc
  pure (if te < st.bestErr then ⟨tq, tc, te⟩ else st)

/-- The initialization of src/main.rs lines 369-381: `q0` is the vector of
initial random quantities (one uniform draw per salt, modelled as an
ambient input); the best concentrations are computed into an all-zero
buffer of length `numIons` and the best error evaluated on them. -/
def initState (contributions : List (List ℚ)) (constraints : List Constraint)
    (numIons : Nat) (q0 : List ℚ) : Option SearchState := do
  let bc ← conc contributions q0 (List.replicate numIons 0)
  let be ← err constraints bc
  pure ⟨q0, bc, be⟩

/-- The state after `n` iterations of the loop of src/main.rs lines
383-398, starting from the initial state; `gs n` is the stream of Gaussian
samples drawn in iteration `n`.  `none` models a panic anywhere so far. -/
def run (contributions : List (List ℚ)) (constraints : List Constraint)
    (numIons : Nat) (q0 : List ℚ) (gs : Nat → Nat → ℚ) : Nat → Option SearchState
  | 0 => initState contributions constraints numIons q0
  | n + 1 =>
      (run contributions constraints numIons q0 gs n).bind
        (fun st => step contributions constraints numIons st (gs n))

/-- The fixed iteration budget of the loop `for i in 1..500001` of
src/main.rs line 383. -/
def numIterations : Nat := 500000

/-- The reporter's per-constraint pass/fail mark (src/main.rs lines
430-473): Exact passes when `|achieved - target| < 1`; Range passes when
the achieved concentration lies inclusively within the bounds; Ratio
computes the achieved ratio as the quotient when the denominator
concentration exceeds 1/100 and as infinity otherwise, so the mark is pass
exactly when the denominator exceeds 1/100 and the quotient is within 1/10
of the target (the infinite achieved ratio never passes the tolerance). -/
def constraintPass (concentrations : List ℚ) : Constraint → Option Bool
  | .Exact i t =>
      (concentrations[i]?).map (fun c => decide (|c - t| < 1))
  | .Range i mn mx =>
      (concentrations[i]?).map (fun c => decide (mn ≤ c) && decide (c ≤ mx))
  | .Ratio a b r => do
      let ca ← concentrations[a]?
      let cb ← concentrations[b]?
      pure (if 1/100 < cb then decide (|ca / cb - r| < 1/10) else false)

/-- The pass/fail marks as props, for the characterization of
`constraintPass`: the Ratio mark demands the denominator concentration
exceed 1/100 in addition to the quotient tolerance. -/
def passSpec (concentrations : List ℚ) : Constraint → Prop
  | .Exact i t => |concentrations.getD i 0 - t| < 1
  | .Range i mn mx =>
      mn ≤ concentrations.getD i 0 ∧ concentrations.getD i 0 ≤ mx
  | .Ratio a b r =>
      1/100 < concentrations.getD b 0 ∧
      |concentrations.getD a 0 / concentrations.getD b 0 - r| < 1/10

theorem errC_eq_penaltyTotal (cs : List ℚ) (k : Constraint)
    (h : refersBelow cs.length k = true) :
    errC cs k = some (penaltyTotal cs k) := by
  cases k with
  | Exact i t =>
      have hi : i < cs.length := by simpa [refersBelow] using h
      simp [errC, penaltyTotal, List.getElem?_eq_getElem hi, List.getD_eq_getElem _ _ hi]
  | Range i mn mx =>
      have hi : i < cs.length := by simpa [refersBelow] using h
      simp [errC, penaltyTotal, List.getElem?_eq_getElem hi, List.getD_eq_getElem _ _ hi]
  | Ratio a b r =>
      have hab : a < cs.length ∧ b < cs.length := by simpa [refersBelow] using h
      simp [errC, penaltyTotal, List.getElem?_eq_getElem hab.1, List.getElem?_eq_getElem hab.2,
        List.getD_eq_getElem _ _ hab.1, List.getD_eq_getElem _ _ hab.2]

theorem errFold_eq (cs : List ℚ) (l : List Constraint)
    (h : ∀ k ∈ l, refersBelow cs.length k = true) :
    ∀ a : ℚ, l.foldlM (fun sum k => (errC cs k).map (fun v => sum + v)) a =
      some (a + (l.map (penaltyTotal cs)).sum) := by
  induction l with
  | nil => intro a; simp
  | cons k l ih =>
      intro a
      have hk : refersBelow cs.length k = true := h k (by simp)
      have hl : ∀ k2 ∈ l, refersBelow cs.length k2 = true :=
        fun k2 hm => h k2 (List.mem_cons_of_mem _ hm)
      rw [List.foldlM_cons, errC_eq_penaltyTotal cs k hk]
      simp only [Option.map_some, Option.bind_some, ih hl]
      simp [add_assoc]

theorem err_eq_sum (constraints : List Constraint) (cs : List ℚ)
    (h : ∀ k ∈ constraints, refersBelow cs.length k = true) :
    err constraints cs = some ((constraints.map (penaltyTotal cs)).sum) := by
  simpa [err] using errFold_eq cs constraints h 0

theorem penaltyTotal_eq_penaltySpec (cs : List ℚ) (k : Constraint) :
    penaltyTotal cs k = penaltySpec cs k := by
  cases k with
  | Exact i t => simp [penaltyTotal, penaltySpec]; ring
  | Range i mn mx =>
      simp only [penaltyTotal, penaltySpec]
      by_cases h1 : cs.getD i 0 < mn
      · have h2 : ¬ (mn ≤ cs.getD i 0 ∧ cs.getD i 0 ≤ mx) := fun hc => absurd hc.1 (not_le.mpr h1)
        rw [if_pos h1, if_neg h2, if_pos h1]
        ring
      · by_cases h2 : cs.getD i 0 > mx
        · have h3 : ¬ (mn ≤ cs.getD i 0 ∧ cs.getD i 0 ≤ mx) := fun hc => absurd hc.2 (not_le.mpr h2)
          rw [if_neg h1, if_pos h2, if_neg h3, if_neg h1]
          ring
        · have h3 : mn ≤ cs.getD i 0 ∧ cs.getD i 0 ≤ mx := ⟨not_lt.mp h1, not_lt.mp h2⟩
          rw [if_neg h1, if_neg h2, if_pos h3]
  | Ratio a b r =>
      simp only [penaltyTotal, penaltySpec]
      by_cases h1 : cs.getD b 0 < 1/100
      · rw [if_pos h1, if_pos h1]
      · rw [if_neg h1, if_neg h1]
        ring

theorem penaltyTotal_nonneg (cs : List ℚ) (k : Constraint) : 0 ≤ penaltyTotal cs k := by
  cases k with
  | Exact i t => exact mul_self_nonneg _
  | Range i mn mx =>
      simp only [penaltyTotal]
      split_ifs
      · exact mul_self_nonneg _
      · exact mul_self_nonneg _
      · exact le_refl 0
  | Ratio a b r =>
      simp only [penaltyTotal]
      split_ifs
      · norm_num
      · exact mul_self_nonneg _

theorem penaltyTotal_eq_zero_iff (cs : List ℚ) (k : Constraint) :
    penaltyTotal cs k = 0 ↔ satisfied cs k := by
  cases k with
  | Exact i t =>
      simp [penaltyTotal, satisfied, mul_self_eq_zero, sub_eq_zero]
  | Range i mn mx =>
      simp only [penaltyTotal, satisfied]
      by_cases h1 : cs.getD i 0 < mn
      · rw [if_pos h1]
        constructor
        · intro hz
          have h2 : cs.getD i 0 - mn = 0 := mul_self_eq_zero.mp hz
          exact absurd (by linarith : mn ≤ cs.getD i 0) (not_le.mpr h1)
        · intro hs
          exact absurd hs.1 (not_le.mpr h1)
      · by_cases h2 : cs.getD i 0 > mx
        · rw [if_neg h1, if_pos h2]
          constructor
          · intro hz
            have h3 : cs.getD i 0 - mx = 0 := mul_self_eq_zero.mp hz
            exact absurd (by linarith : cs.getD i 0 ≤ mx) (not_le.mpr h2)
          · intro hs
            exact absurd hs.2 (not_le.mpr h2)
        · rw [if_neg h1, if_neg h2]
          exact ⟨fun _ => ⟨not_lt.mp h1, not_lt.mp h2⟩, fun _ => rfl⟩
  | Ratio a b r =>
      simp only [penaltyTotal, satisfied]
      by_cases h1 : cs.getD b 0 < 1/100
      · rw [if_pos h1]
        constructor
        · intro hz; norm_num at hz
        · intro hs
          exact absurd hs.1 (not_le.mpr h1)
      · rw [if_neg h1, mul_self_eq_zero, sub_eq_zero]
        exact ⟨fun he => ⟨not_lt.mp h1, he⟩, fun hs => hs.2⟩

theorem sum_penalties_eq_zero_iff (cs : List ℚ) (l : List Constraint) :
    (l.map (penaltyTotal cs)).sum = 0 ↔ ∀ k ∈ l, satisfied cs k := by
  induction l with
  | nil => simp
  | cons k l ih =>
      simp only [List.map_cons, List.sum_cons, List.mem_cons]
      have hk0 : 0 ≤ penaltyTotal cs k := penaltyTotal_nonneg cs k
      have hl0 : 0 ≤ (l.map (penaltyTotal cs)).sum := by
        apply List.sum_nonneg
        intro x hx
        obtain ⟨k2, -, rfl⟩ := List.mem_map.mp hx
        exact penaltyTotal_nonneg cs k2
      constructor
      · intro hz
        have hk : penaltyTotal cs k = 0 := by linarith
        have hl : (l.map (penaltyTotal cs)).sum = 0 := by linarith
        intro k2 hk2
        rcases hk2 with rfl | hm
        · exact (penaltyTotal_eq_zero_iff cs k2).mp hk
        · exact ih.mp hl k2 hm
      · intro hs
        have hk : penaltyTotal cs k = 0 :=
          (penaltyTotal_eq_zero_iff cs k).mpr (hs k (Or.inl rfl))
        have hl : (l.map (penaltyTotal cs)).sum = 0 :=
          ih.mpr fun k2 hm => hs k2 (Or.inr hm)
        rw [hk, hl, add_zero]

theorem errC_nonneg (cs : List ℚ) (k : Constraint) (v : ℚ)
    (h : errC cs k = some v) : 0 ≤ v := by
  cases k with
  | Exact i t =>
      simp only [errC, Option.map_eq_some'] at h
      obtain ⟨c, -, rfl⟩ := h
      exact mul_self_nonneg _
  | Range i mn mx =>
      simp only [errC, Option.map_eq_some'] at h
      obtain ⟨c, -, rfl⟩ := h
      split_ifs
      · exact mul_self_nonneg _
      · exact mul_self_nonneg _
      · exact le_refl 0
  | Ratio a b r =>
      cases ha : cs[a]? with
      | none => simp [errC, ha] at h
      | some ca =>
        cases hb : cs[b]? with
        | none => simp [errC, ha, hb] at h
        | some cb =>
          simp only [errC, ha, hb, Option.bind_eq_bind, Option.some_bind,
            Option.pure_def, Option.some_inj] at h
          subst h
          split_ifs
          · norm_num
          · exact mul_self_nonneg _

theorem errFold_ge (cs : List ℚ) (l : List Constraint) :
    ∀ a e : ℚ, l.foldlM (fun sum k => (errC cs k).map (fun v => sum + v)) a = some e →
      a ≤ e := by
  induction l with
  | nil =>
      intro a e h
      simp only [List.foldlM_nil, Option.pure_def, Option.some_inj] at h
      exact le_of_eq h
  | cons k l ih =>
      intro a e h
      rw [List.foldlM_cons] at h
      obtain ⟨b, hb, hrest⟩ := Option.bind_eq_some.mp h
      obtain ⟨v, hv, rfl⟩ := Option.map_eq_some'.mp hb
      have h0 := errC_nonneg cs k v hv
      have h1 := ih (a + v) e hrest
      linarith

theorem err_nonneg (constraints : List Constraint) (cs : List ℚ) (e : ℚ)
    (h : err constraints cs = some e) : 0 ≤ e :=
  errFold_ge cs constraints 0 e h

theorem run_succ (contributions : List (List ℚ)) (constraints : List Constraint)
    (numIons : Nat) (q0 : List ℚ) (gs : Nat → Nat → ℚ) (n : Nat) :
    run contributions constraints numIons q0 gs (n + 1) =
      (run contributions constraints numIons q0 gs n).bind
        (fun st => step contributions constraints numIons st (gs n)) := rfl

theorem run_none_of_init_none (contributions : List (List ℚ))
    (constraints : List Constraint) (numIons : Nat) (q0 : List ℚ)
    (gs : Nat → Nat → ℚ) (h : initState contributions constraints numIons q0 = none) :
    ∀ n, run contributions constraints numIons q0 gs n = none := by
  intro n
  induction n with
  | zero => exact h
  | succ n ih => rw [run_succ, ih]; rfl

theorem step_eq (contributions : List (List ℚ)) (constraints : List Constraint)
    (numIons : Nat) (st : SearchState) (g : Nat → ℚ) (tc : List ℚ) (te : ℚ)
    (hc : conc contributions (nudge st.bestQuantities g) (List.replicate numIons 0) = some tc)
    (he : err constraints tc = some te) :
    step contributions constraints numIons st g =
      some (if te < st.bestErr then ⟨nudge st.bestQuantities g, tc, te⟩ else st) := by
  simp only [step, hc, he, Option.bind_eq_bind, Option.some_bind, Option.pure_def]

theorem step_inv (contributions : List (List ℚ)) (constraints : List Constraint)
    (numIons : Nat) (st : SearchState) (g : Nat → ℚ) (st2 : SearchState)
    (h : step contributions constraints numIons st g = some st2) :
    ∃ tc te,
      conc contributions (nudge st.bestQuantities g) (List.replicate numIons 0) = some tc ∧
      err constraints tc = some te ∧
      st2 = if te < st.bestErr then ⟨nudge st.bestQuantities g, tc, te⟩ else st := by
  simp only [step, Option.bind_eq_bind, Option.bind_eq_some', Option.pure_def,
    Option.some_inj] at h
  obtain ⟨tc, hc, te, he, hst⟩ := h
  exact ⟨tc, te, hc, he, hst.symm⟩

theorem step_bestErr_le (contributions : List (List ℚ)) (constraints : List Constraint)
    (numIons : Nat) (st : SearchState) (g : Nat → ℚ) (st2 : SearchState)
    (h : step contributions constraints numIons st g = some st2) :
    st2.bestErr ≤ st.bestErr := by
  obtain ⟨tc, te, hc, he, hst⟩ := step_inv contributions constraints numIons st g st2 h
  subst hst
  split_ifs with hlt
  · exact le_of_lt hlt
  · exact le_refl _

theorem run_succ_inv (contributions : List (List ℚ)) (constraints : List Constraint)
    (numIons : Nat) (q0 : List ℚ) (gs : Nat → Nat → ℚ) (n : Nat) (st2 : SearchState)
    (h : run contributions constraints numIons q0 gs (n + 1) = some st2) :
    ∃ st, run contributions constraints numIons q0 gs n = some st ∧
      step contributions constraints numIons st (gs n) = some st2 := by
  rw [run_succ] at h
  exact Option.bind_eq_some'.mp h

theorem run_bestErr_mono (contributions : List (List ℚ)) (constraints : List Constraint)
    (numIons : Nat) (q0 : List ℚ) (gs : Nat → Nat → ℚ) {m n : Nat} (hmn : m ≤ n) :
    ∀ stm stn, run contributions constraints numIons q0 gs m = some stm →
      run contributions constraints numIons q0 gs n = some stn →
      stn.bestErr ≤ stm.bestErr := by
  induction hmn with
  | refl =>
      intro stm stn h1 h2
      rw [h1, Option.some_inj] at h2
      rw [h2]
  | step h ih =>
      intro stm stn h1 h2
      obtain ⟨stmid, hmid, hstep⟩ := run_succ_inv contributions constraints numIons q0 gs _ stn h2
      exact le_trans
        (step_bestErr_le contributions constraints numIons stmid _ stn hstep)
        (ih stm stmid h1 hmid)

theorem run_const_of_step_fixed (contributions : List (List ℚ))
    (constraints : List Constraint) (numIons : Nat) (q0 : List ℚ)
    (gs : Nat → Nat → ℚ) (st : SearchState)
    (hinit : initState contributions constraints numIons q0 = some st)
    (hstep : ∀ n, step contributions constraints numIons st (gs n) = some st) :
    ∀ n, run contributions constraints numIons q0 gs n = some st := by
  intro n
  induction n with
  | zero => exact hinit
  | succ n ih => rw [run_succ, ih]; simpa using hstep n

/-- C1: the specification demands `concentrations[i] = Σ_s matrix[s][i] * quantities[s]`
for EVERY ion index `i`, whatever the salt and ion counts; the source's `conc`
iterates its outer loop over the salt count, so with 1 salt and 2 ions it
leaves ion 1 at its initial value 0 although salt 0 contributes 5 per unit.
The failing input: matrix [[10, 5]], quantities [1], output buffer [0, 0]. -/
theorem conc_skips_ions_beyond_salt_count :
    conc [[10, 5]] [1] [0, 0] = some [10, 0] ∧
    concSpec [[10, 5]] [1] 2 = [10, 5] ∧
    (some [10, 0] : Option (List ℚ)) ≠ some [10, 5] := by
  refine ⟨?_, ?_, ?_⟩ <;>
    norm_num [conc, concSpec, concInner, List.foldlM, List.range_succ]

/-- C2: with 2 salts and 1 ion — shapes the loaders accept — `conc` writes
`concentrations[1]` into a buffer of length 1, a Rust indexing panic
(`none` here), so the core does fail at runtime when the number of salts
exceeds the number of ions, and the whole optimization run fails with it. -/
theorem conc_out_of_bounds_when_salts_exceed_ions :
    conc [[1], [1]] [1, 1] [0] = none ∧
    run [[1], [1]] [] 1 [1, 1] (fun _ _ => 0) numIterations = none := by
  constructor
  · norm_num [conc, concInner, List.foldlM, List.range_succ]
  · exact run_none_of_init_none [[1], [1]] [] 1 [1, 1] (fun _ _ => 0)
      (by norm_num [initState, conc, concInner, List.foldlM, List.range_succ,
        List.replicate]) numIterations

/-- C3: over validated constraints (ion indices in bounds, Range bounds
ordered) the error function returns exactly the sum, over the constraints,
of the specification's per-constraint penalties. -/
theorem err_returns_sum_of_spec_penalties (constraints : List Constraint) (cs : List ℚ)
    (hcov : ∀ k ∈ constraints, refersBelow cs.length k = true)
    (_hwf : ∀ k ∈ constraints, rangeWF k = true) :
    err constraints cs = some ((constraints.map (penaltySpec cs)).sum) := by
  rw [err_eq_sum constraints cs hcov]
  have hfun : penaltyTotal cs = penaltySpec cs :=
    funext fun k => penaltyTotal_eq_penaltySpec cs k
  rw [hfun]

theorem err_returns_sum_of_spec_penalties_witness :
    err [Constraint.Exact 0 5, Constraint.Range 0 2 3, Constraint.Ratio 0 1 2] [5, 5] =
      some ((([Constraint.Exact 0 5, Constraint.Range 0 2 3, Constraint.Ratio 0 1 2]).map
        (penaltySpec [5, 5])).sum) := by
  exact err_returns_sum_of_spec_penalties
    [Constraint.Exact 0 5, Constraint.Range 0 2 3, Constraint.Ratio 0 1 2] [5, 5]
    (by simp [refersBelow]) (by simp [rangeWF]; norm_num)

/-- C4: over constraints whose ion indices are in bounds, the error function
returns 0 exactly when every Exact constraint hits its target, every Range
constraint's ion lies inclusively within its bounds, and every Ratio
constraint has denominator at least 1/100 with quotient equal to its
target ratio. -/
theorem err_zero_iff_all_satisfied (constraints : List Constraint) (cs : List ℚ)
    (hcov : ∀ k ∈ constraints, refersBelow cs.length k = true) :
    (err constraints cs = some 0 ↔ ∀ k ∈ constraints, satisfied cs k) := by
  rw [err_eq_sum constraints cs hcov, Option.some_inj]
  exact sum_penalties_eq_zero_iff cs constraints

theorem err_zero_iff_all_satisfied_witness :
    (err [Constraint.Exact 0 5] [5] = some 0 ↔
      ∀ k ∈ [Constraint.Exact 0 5], satisfied [5] k) :=
  err_zero_iff_all_satisfied [Constraint.Exact 0 5] [5] (by simp [refersBelow])

/-- C5: in every iteration the best triple is replaced exactly when the
trial error is strictly smaller than the current best error (a tie leaves
the state unchanged), and consequently the best error is non-increasing
along any run, for every random stream. -/
theorem accept_iff_strict_improvement_and_monotone
    (contributions : List (List ℚ)) (constraints : List Constraint) (numIons : Nat) :
    (∀ (st : SearchState) (g : Nat → ℚ) (tc : List ℚ) (te : ℚ),
      conc contributions (nudge st.bestQuantities g) (List.replicate numIons 0) = some tc →
      err constraints tc = some te →
      step contributions constraints numIons st g =
        some (if te < st.bestErr then ⟨nudge st.bestQuantities g, tc, te⟩ else st)) ∧
    (∀ (q0 : List ℚ) (gs : Nat → Nat → ℚ) (m n : Nat), m ≤ n →
      ∀ stm stn, run contributions constraints numIons q0 gs m = some stm →
        run contributions constraints numIons q0 gs n = some stn →
        stn.bestErr ≤ stm.bestErr) :=
  ⟨fun st g tc te hc he => step_eq contributions constraints numIons st g tc te hc he,
   fun q0 gs _ _ hmn => run_bestErr_mono contributions constraints numIons q0 gs hmn⟩

theorem accept_iff_strict_improvement_and_monotone_witness :
    step [[1]] [Constraint.Exact 0 5] 1 ⟨[1], [1], 16⟩ (fun _ => 0) =
      some (if (16:ℚ) < 16 then ⟨nudge [1] (fun _ => 0), [1], 16⟩ else ⟨[1], [1], 16⟩) := by
  have hn : nudge [1] (fun _ => (0:ℚ)) = [1] := by
    norm_num [nudge, max_def, List.range_succ]
  exact (accept_iff_strict_improvement_and_monotone [[1]] [Constraint.Exact 0 5] 1).1
    ⟨[1], [1], 16⟩ (fun _ => 0) [1] 16
    (by rw [show (⟨[1], [1], 16⟩ : SearchState).bestQuantities = [1] from rfl, hn]
        norm_num [conc, concInner, List.foldlM, List.range_succ, List.replicate])
    (by norm_num [err, errC, List.foldlM])

/-- C6: `nudge` maps each component `s` of the input to
`max 0 (input[s] + g s)`, where `g s` is the `s`-th sample the call draws
(the source draws it from a Gaussian with mean `-eps` and standard
deviation `eps`; the distribution is a modelling assumption recorded at
`nudge`, the samples being quantified here); hence every output component
is non-negative, and there is no upper clamp: the output exceeds any bound
for a suitable sample. -/
theorem nudge_clamps_at_zero_only (qin : List ℚ) (g : Nat → ℚ) :
    (nudge qin g).length = qin.length ∧
    (∀ s, s < qin.length → (nudge qin g).getD s 0 = max 0 (qin.getD s 0 + g s)) ∧
    (∀ s, s < qin.length → 0 ≤ (nudge qin g).getD s 0) ∧
    (∀ B : ℚ, ∃ g2 : Nat → ℚ, B < (nudge [0] g2).getD 0 0) := by
  have hlen : (nudge qin g).length = qin.length := by simp [nudge]
  have hval : ∀ s, s < qin.length →
      (nudge qin g).getD s 0 = max 0 (qin.getD s 0 + g s) := by
    intro s hs
    rw [List.getD_eq_getElem _ _ (by rw [hlen]; exact hs)]
    simp [nudge]
  refine ⟨hlen, hval, ?_, ?_⟩
  · intro s hs
    rw [hval s hs]
    exact le_max_left 0 _
  · intro B
    refine ⟨fun _ => B + 1, ?_⟩
    have h1 : (nudge [0] (fun _ => B + 1)).getD 0 0 = max 0 (0 + (B + 1)) := by
      simp [nudge]
    rw [h1, zero_add]
    exact lt_of_lt_of_le (lt_add_one B) (le_max_right 0 (B + 1))

theorem nudge_clamps_at_zero_only_witness :
    (nudge [2] (fun _ => 1)).getD 0 0 = max 0 ((2:ℚ) + 1) ∧
    0 ≤ (nudge [2] (fun _ => 1)).getD 0 0 := by
  have h := nudge_clamps_at_zero_only [2] (fun _ => 1)
  refine ⟨?_, h.2.2.1 0 (by simp)⟩
  have h2 := h.2.1 0 (by simp)
  simpa using h2

/-- C7: the loop budget is the fixed count 500000; the state after `n + 1`
iterations is obtained unconditionally from the state after `n` iterations
(there is no early-exit branch), and in particular when the best error has
already reached 0 the next iteration still executes and — errors being
non-negative — leaves the state unchanged; `run` is a total function of the
iteration count, so the loop terminates. -/
theorem loop_runs_fixed_budget_no_early_exit :
    numIterations = 500000 ∧
    (∀ (contributions : List (List ℚ)) (constraints : List Constraint) (numIons : Nat)
       (q0 : List ℚ) (gs : Nat → Nat → ℚ) (n : Nat),
      run contributions constraints numIons q0 gs (n + 1) =
        (run contributions constraints numIons q0 gs n).bind
          (fun st => step contributions constraints numIons st (gs n))) ∧
    (∀ (contributions : List (List ℚ)) (constraints : List Constraint) (numIons : Nat)
       (q0 : List ℚ) (gs : Nat → Nat → ℚ) (n : Nat) (st : SearchState)
       (tc : List ℚ) (te : ℚ),
      run contributions constraints numIons q0 gs n = some st →
      st.bestErr = 0 →
      conc contributions (nudge st.bestQuantities (gs n)) (List.replicate numIons 0) =
        some tc →
      err constraints tc = some te →
      run contributions constraints numIons q0 gs (n + 1) = some st) := by
  refine ⟨rfl, fun c k ni q0 gs n => run_succ c k ni q0 gs n, ?_⟩
  intro c k ni q0 gs n st tc te hrun h0 hc he
  rw [run_succ, hrun, Option.some_bind', step_eq c k ni st (gs n) tc te hc he, h0,
    if_neg (not_lt.mpr (err_nonneg k tc te he))]

theorem loop_runs_fixed_budget_no_early_exit_witness :
    run [] [] 0 [] (fun _ _ => 0) 1 = some ⟨[], [], 0⟩ := by
  refine loop_runs_fixed_budget_no_early_exit.2.2 [] [] 0 [] (fun _ _ => 0) 0
    ⟨[], [], 0⟩ [] 0 ?_ rfl ?_ ?_
  · norm_num [run, initState, conc, concInner, err, List.foldlM, List.replicate,
      Option.bind_eq_bind, Option.some_bind, Option.pure_def]
  · norm_num [nudge, conc, concInner, List.foldlM, List.replicate]
  · norm_num [err, List.foldlM]

/-- C8: with zero salts the quantity vector is empty forever, the
concentration vector is identically zero at every iteration, and the best
error never moves from the error of the all-zero concentration vector, for
every constraint set and every random stream; in particular with the single
constraint Exact(ion, 5) on a valid ion index the best error is 25 at
initialization and after every iteration. -/
theorem zero_salts_constant_state (contributions : List (List ℚ)) (numIons : Nat)
    (gs : Nat → Nat → ℚ) :
    (∀ (constraints : List Constraint) (e0 : ℚ),
      err constraints (List.replicate numIons 0) = some e0 →
      ∀ n, run contributions constraints numIons [] gs n =
        some ⟨[], List.replicate numIons 0, e0⟩) ∧
    (∀ ion, ion < numIons → ∀ n,
      run contributions [Constraint.Exact ion 5] numIons [] gs n =
        some ⟨[], List.replicate numIons 0, 25⟩) := by
  have hconc : ∀ scratch : List ℚ, conc contributions [] scratch = some scratch :=
    fun scratch => rfl
  have hnudge : ∀ g : Nat → ℚ, nudge [] g = [] := fun g => rfl
  have hmain : ∀ (constraints : List Constraint) (e0 : ℚ),
      err constraints (List.replicate numIons 0) = some e0 →
      ∀ n, run contributions constraints numIons [] gs n =
        some ⟨[], List.replicate numIons 0, e0⟩ := by
    intro constraints e0 he
    apply run_const_of_step_fixed
    · simp only [initState, hconc, he, Option.bind_eq_bind, Option.some_bind,
        Option.pure_def]
    · intro n
      simp only [step, hnudge, hconc, he, Option.bind_eq_bind, Option.some_bind,
        Option.pure_def, Option.some_inj]
      rw [if_neg (lt_irrefl e0)]
  refine ⟨hmain, ?_⟩
  intro ion hion n
  apply hmain
  have hz : (List.replicate numIons (0:ℚ))[ion]? = some 0 := by
    simp [List.getElem?_replicate, hion]
  norm_num [err, errC, List.foldlM, hz]

theorem zero_salts_constant_state_witness :
    run [] [Constraint.Exact 0 5] 1 [] (fun _ _ => 0) 2 =
      some ⟨[], List.replicate 1 0, 25⟩ :=
  (zero_salts_constant_state [] 1 (fun _ _ => 0)).2 0 (by norm_num) 2

/-- C9 (amended): the reporter's marks are: Exact passes exactly when
|achieved − target| < 1; Range passes exactly when the achieved
concentration lies inclusively within the bounds; Ratio passes exactly when
the denominator concentration EXCEEDS 1/100 and the quotient of the two
achieved concentrations is within 1/10 of the target — when the denominator
concentration is at most 1/100 the source reports the achieved ratio as
infinite and the mark is fail regardless of the quotient. -/
theorem pass_marks_characterization (cs : List ℚ) (k : Constraint)
    (h : refersBelow cs.length k = true) :
    ∃ b, constraintPass cs k = some b ∧ (b = true ↔ passSpec cs k) := by
  cases k with
  | Exact i t =>
      have hi : i < cs.length := by simpa [refersBelow] using h
      have hii : cs[i]? = some (cs.getD i 0) := by
        rw [List.getElem?_eq_getElem hi, List.getD_eq_getElem _ _ hi]
      refine ⟨decide (|cs.getD i 0 - t| < 1), ?_, ?_⟩
      · simp only [constraintPass, hii, Option.map_some']
      · simp only [decide_eq_true_eq, passSpec]
  | Range i mn mx =>
      have hi : i < cs.length := by simpa [refersBelow] using h
      have hii : cs[i]? = some (cs.getD i 0) := by
        rw [List.getElem?_eq_getElem hi, List.getD_eq_getElem _ _ hi]
      refine ⟨decide (mn ≤ cs.getD i 0) && decide (cs.getD i 0 ≤ mx), ?_, ?_⟩
      · simp only [constraintPass, hii, Option.map_some']
      · simp only [Bool.and_eq_true, decide_eq_true_eq, passSpec]
  | Ratio a b r =>
      have hab : a < cs.length ∧ b < cs.length := by simpa [refersBelow] using h
      have hia : cs[a]? = some (cs.getD a 0) := by
        rw [List.getElem?_eq_getElem hab.1, List.getD_eq_getElem _ _ hab.1]
      have hib : cs[b]? = some (cs.getD b 0) := by
        rw [List.getElem?_eq_getElem hab.2, List.getD_eq_getElem _ _ hab.2]
      refine ⟨if 1/100 < cs.getD b 0 then
          decide (|cs.getD a 0 / cs.getD b 0 - r| < 1/10) else false, ?_, ?_⟩
      · simp only [constraintPass, hia, hib, Option.bind_eq_bind, Option.some_bind,
          Option.pure_def]
      · by_cases hcb : 1/100 < cs.getD b 0
        · rw [if_pos hcb]
          simp only [decide_eq_true_eq, passSpec]
          exact ⟨fun hq => ⟨hcb, hq⟩, fun hp => hp.2⟩
        · rw [if_neg hcb]
          simp only [passSpec]
          constructor
          · intro hfalse; simp at hfalse
          · intro hp; exact absurd hp.1 hcb

theorem pass_marks_characterization_witness :
    ∃ b, constraintPass [5] (Constraint.Exact 0 5) = some b ∧
      (b = true ↔ passSpec [5] (Constraint.Exact 0 5)) :=
  pass_marks_characterization [5] (Constraint.Exact 0 5) (by simp [refersBelow])

/-- C9 (counterexample to the claim as stated): a complete 500000-iteration
run under the all-zero sample stream ends with best concentrations
[1/100, 1/200]; for the constraint Ratio 0 1 2 the quotient of the two
achieved concentrations is exactly 2, within the claimed 0.1 tolerance, so
the claim as stated requires a pass mark — yet the reporter marks the
constraint failed, because the denominator concentration 1/200 does not
exceed 1/100 and the achieved ratio is reported as infinite. -/
theorem ratio_pass_mark_counterexample :
    run [[1, 0], [0, 1]] [Constraint.Ratio 0 1 2] 2 [1/100, 1/200] (fun _ _ => 0)
      numIterations = some ⟨[1/100, 1/200], [1/100, 1/200], 10000⟩ ∧
    constraintPass [1/100, 1/200] (Constraint.Ratio 0 1 2) = some false ∧
    |((1:ℚ)/100) / (1/200) - 2| < 1/10 := by
  refine ⟨run_const_of_step_fixed _ _ _ _ _ _ ?_ ?_ numIterations, ?_, ?_⟩
  · norm_num [initState, conc, concInner, err, errC, List.foldlM, List.range_succ,
      List.replicate, Option.bind_eq_bind, Option.some_bind, Option.pure_def]
  · intro n
    norm_num [step, nudge, conc, concInner, err, errC, List.foldlM, List.range_succ,
      List.replicate, max_def, Option.bind_eq_bind, Option.some_bind, Option.pure_def]
  · norm_num [constraintPass, Option.bind_eq_bind, Option.some_bind, Option.pure_def]
  · norm_num

/-- C10: whenever the run reaches a state (after initialization or any
number of iterations, panic-free so far), the best triple is internally
consistent: the best concentrations are exactly the concentration
computation applied to the best quantities (into the all-zero scratch
buffer), and the best error is exactly the error function applied to the
best concentrations. -/
theorem best_triple_consistent (contributions : List (List ℚ))
    (constraints : List Constraint) (numIons : Nat) (q0 : List ℚ)
    (gs : Nat → Nat → ℚ) :
    ∀ (n : Nat) (st : SearchState),
      run contributions constraints numIons q0 gs n = some st →
      conc contributions st.bestQuantities (List.replicate numIons 0) =
        some st.bestConcentrations ∧
      err constraints st.bestConcentrations = some st.bestErr := by
  intro n
  induction n with
  | zero =>
      intro st h
      simp only [run, initState, Option.bind_eq_bind, Option.bind_eq_some',
        Option.pure_def, Option.some_inj] at h
      obtain ⟨bc, hc, be, he, hst⟩ := h
      subst hst
      exact ⟨hc, he⟩
  | succ n ih =>
      intro st h
      obtain ⟨st0, h0, hstep⟩ := run_succ_inv contributions constraints numIons q0 gs n st h
      obtain ⟨tc, te, hc, he, hst⟩ :=
        step_inv contributions constraints numIons st0 (gs n) st hstep
      by_cases hlt : te < st0.bestErr
      · rw [if_pos hlt] at hst
        subst hst
        exact ⟨hc, he⟩
      · rw [if_neg hlt] at hst
        subst hst
        exact ih _ h0

theorem best_triple_consistent_witness :
    conc [[2]] (⟨[1], [2], 9⟩ : SearchState).bestQuantities (List.replicate 1 0) =
      some (⟨[1], [2], 9⟩ : SearchState).bestConcentrations ∧
    err [Constraint.Exact 0 5] (⟨[1], [2], 9⟩ : SearchState).bestConcentrations =
      some (⟨[1], [2], 9⟩ : SearchState).bestErr :=
  best_triple_consistent [[2]] [Constraint.Exact 0 5] 1 [1] (fun _ _ => 0) 0 ⟨[1], [2], 9⟩
    (by norm_num [run, initState, conc, concInner, err, errC, List.foldlM,
      List.range_succ, List.replicate, Option.bind_eq_bind, Option.some_bind,
      Option.pure_def])

end Beerwater
